import Mathlib

/-!
# Verification of the span-decoding and evaluation core of `run_ner.py`

This file gives a shallow embedding of the span extractor (`find_all_tags`)
and the metric evaluator (`precision`, `recall`, `compute_f1`) of the
CoNLL-2004 NER repository, and proves properties of them.

Tag sequences and validity masks are modelled as `List Int` (the Python code
operates on flattened `int32` numpy arrays).  Fallible array indexing is
modelled with `Option`: an out-of-bounds read in the Python code raises
`IndexError`, which the embedding renders as `none`.  Exact rational
arithmetic (`ℚ`) stands in for Python float division.
-/

/-- The per-category span lists produced by `find_all_tags`.  The Python code
builds a dict with keys `"per"`, `"loc"`, `"org"` (in that insertion order);
each value is a list of `(start_position, continuation_length)` pairs. -/
structure Tags where
  per : List (Nat × Nat)
  loc : List (Nat × Nat)
  org : List (Nat × Nat)
deriving DecidableEq, Repr

/-- The empty span collection, the initial value of the `tags` dict. -/
def Tags.empty : Tags := ⟨[], [], []⟩

/-- All spans of a collection, in the Python dict iteration order
`"per"`, `"loc"`, `"org"`. -/
def Tags.allSpans (t : Tags) : List (Nat × Nat) := t.per ++ t.loc ++ t.org

/-- The inner lookahead loop of `find_all_tags`, applied to the suffix of the
tag sequence that starts at position `seek = idx + 1`:
`while predictions[seek] == iTag: length += 1; seek += 1`.
Returns the number of consecutive leading elements equal to `iTag`, or
`none` when the loop condition reads past the end of the sequence (the
Python code raises `IndexError` there). -/
def runLen (iTag : Int) : List Int → Option Nat
  | [] => none
  | t :: rest => if t = iTag then (runLen iTag rest).map (· + 1) else some 0

/-- The main scanning loop of `find_all_tags`, cursor `idx`, accumulated
span collection `acc`.  Mirrors the Python `while idx < len(predictions)`
loop body branch by branch; a read of `dev_mask[idx]` out of bounds is a
fault (`none`), as is a faulting lookahead.  The extra `fuel` argument only
makes the recursion structural: the cursor strictly increases at every
iteration, so any fuel of at least `preds.length - idx + 1` is never
exhausted, and `findAllTags` below supplies `preds.length + 1`. -/
def findAllTagsAux (preds mask : List Int) : Nat → Nat → Tags → Option Tags
  | 0, _, _ => none
  | fuel + 1, idx, acc =>
    if h : idx < preds.length then
      match mask[idx]? with
      | none => none
      | some m =>
        if m = 0 ∨ preds[idx] = 6 then
          findAllTagsAux preds mask fuel (idx + 1) acc
        else if preds[idx] = 0 then
          match runLen 1 (preds.drop (idx + 1)) with
          | none => none
          | some len =>
            findAllTagsAux preds mask fuel (idx + (len + 1))
              { acc with per := acc.per ++ [(idx, len)] }
        else if preds[idx] = 2 then
          match runLen 3 (preds.drop (idx + 1)) with
          | none => none
          | some len =>
            findAllTagsAux preds mask fuel (idx + (len + 1))
              { acc with org := acc.org ++ [(idx, len)] }
        else if preds[idx] = 4 then
          match runLen 5 (preds.drop (idx + 1)) with
          | none => none
          | some len =>
            findAllTagsAux preds mask fuel (idx + (len + 1))
              { acc with loc := acc.loc ++ [(idx, len)] }
        else
          findAllTagsAux preds mask fuel (idx + 1) acc
    else
      some acc

/-- `find_all_tags(predictions, dev_mask)`: scan the whole sequence starting
at `idx = 0` with the empty collection. -/
def findAllTags (preds mask : List Int) : Option Tags :=
  findAllTagsAux preds mask (preds.length + 1) 0 Tags.empty

/-- The slice `xs[a : b]` of Python (clamped at the bounds, never faulting). -/
def pySlice (xs : List Int) (a b : Nat) : List Int :=
  (xs.drop a).take (b - a)

/-- The per-span true-positive test of `precision` and `recall`:
`(predictions[res[0]:res[0]+res[1]+1] == dev_labels[res[0]:res[0]+res[1]+1]).all()`. -/
def spanMatch (preds labels : List Int) (res : Nat × Nat) : Bool :=
  pySlice preds res.1 (res.1 + res.2 + 1) = pySlice labels res.1 (res.1 + res.2 + 1)

/-- `precision(predictions, dev_labels, dev_mask)`: extract spans from the
predictions, give each span score 1 or 0 by the slice-equality test, and
return the mean (0 when there are no spans).  `none` when extraction
faults. -/
def precision (preds labels mask : List Int) : Option ℚ :=
  (findAllTags preds mask).map (fun result =>
    let pre := result.allSpans.map
      (fun res => if spanMatch preds labels res then (1 : ℤ) else 0)
    if pre.length = 0 then 0 else (pre.sum : ℚ) / (pre.length : ℚ))

/-- `recall(predictions, dev_labels, dev_mask)`: identical to `precision`
except that the spans are extracted from the gold labels.  (`recall` is a
Mathlib command name, hence the quoted identifier.) -/
def «recall» (preds labels mask : List Int) : Option ℚ :=
  (findAllTags labels mask).map (fun result =>
    let scores := result.allSpans.map
      (fun res => if spanMatch preds labels res then (1 : ℤ) else 0)
    if scores.length = 0 then 0 else (scores.sum : ℚ) / (scores.length : ℚ))

/-- `compute_f1(predictions, dev_labels, dev_mask)`: precision then recall
(a fault in either propagates), then `0` when both are `0`, otherwise the
harmonic mean. -/
def compute_f1 (preds labels mask : List Int) : Option ℚ := do
  let p ← precision preds labels mask
  let r ← «recall» preds labels mask
  if p = 0 ∧ r = 0 then pure 0 else pure ((2 * p * r) / (p + r))

/-- The sum of a 0/1 indicator list built by `map` is the number of elements
satisfying the predicate.  (The Python code appends `1` or `0` to a list and
takes `sum(...)`.) -/
lemma map_indicator_sum (l : List (Nat × Nat)) (q : Nat × Nat → Bool) :
    (l.map (fun x => if q x then (1 : ℤ) else 0)).sum = (l.countP q : ℤ) := by
  induction l with
  | nil => simp
  | cons a l ih =>
    simp only [List.map_cons, List.sum_cons, ih, List.countP_cons]
    by_cases hq : q a
    · simp [hq]
      ring
    · simp [hq]

/-- Helper: `precision` on a successful extraction is the fraction of
extracted spans passing the slice-equality test (0 when there are none). -/
lemma precision_eq (P G M : List Int) (S : Tags) (h : findAllTags P M = some S) :
    precision P G M = some (if S.allSpans.length = 0 then 0
      else ((S.allSpans.countP fun r => spanMatch P G r : ℕ) : ℚ) /
        (S.allSpans.length : ℚ)) := by
  rw [precision, h, Option.map_some']
  congr 1
  simp only [List.length_map, map_indicator_sum]
  push_cast
  rfl

/-- Helper: `recall` on a successful extraction of the gold labels is the
fraction of gold spans passing the slice-equality test. -/
lemma recall_eq (P G M : List Int) (S : Tags) (h : findAllTags G M = some S) :
    «recall» P G M = some (if S.allSpans.length = 0 then 0
      else ((S.allSpans.countP fun r => spanMatch P G r : ℕ) : ℚ) /
        (S.allSpans.length : ℚ)) := by
  rw [«recall», h, Option.map_some']
  congr 1
  simp only [List.length_map, map_indicator_sum]
  push_cast
  rfl

/-- C1: for every predicted sequence `P`, gold sequence `G` and mask `M`, on
any run where span extraction from `(P, M)` returns a collection `S`,
`precision` equals the number of spans of `S` (over all three categories)
whose slice `P[start : start+length+1]` is element-wise identical to
`G[start : start+length+1]`, divided by the total number of extracted
spans; when the predicted span collection is empty it returns `0` rather
than failing. -/
theorem precision_is_matching_fraction (P G M : List Int) (S : Tags)
    (h : findAllTags P M = some S) :
    precision P G M = some (if S.allSpans.length = 0 then 0
      else ((S.allSpans.countP fun r => spanMatch P G r : ℕ) : ℚ) /
        (S.allSpans.length : ℚ)) :=
  precision_eq P G M S h

/-- Witness for C1 at `P = [0,1,6]`, `G = [0,5,6]`, `M = [1,1,1]`. -/
theorem precision_is_matching_fraction_witness :
    precision [0, 1, 6] [0, 5, 6] [1, 1, 1] =
      some (if (Tags.allSpans ⟨[(0, 1)], [], []⟩).length = 0 then 0
        else (((Tags.allSpans ⟨[(0, 1)], [], []⟩).countP
            fun r => spanMatch [0, 1, 6] [0, 5, 6] r : ℕ) : ℚ) /
          ((Tags.allSpans ⟨[(0, 1)], [], []⟩).length : ℚ)) :=
  precision_is_matching_fraction [0, 1, 6] [0, 5, 6] [1, 1, 1]
    ⟨[(0, 1)], [], []⟩ (by decide)

/-- C2: `recall` iterates the spans extracted from the gold labels `(G, M)`,
counts a gold span as recovered exactly when `P[start : start+length+1]`
equals `G[start : start+length+1]` element-wise, and returns the recovered
fraction; when the gold span collection is empty it returns `0`. -/
theorem recall_is_recovered_fraction (P G M : List Int) (S : Tags)
    (h : findAllTags G M = some S) :
    «recall» P G M = some (if S.allSpans.length = 0 then 0
      else ((S.allSpans.countP fun r => spanMatch P G r : ℕ) : ℚ) /
        (S.allSpans.length : ℚ)) :=
  recall_eq P G M S h

/-- Witness for C2 at `P = [0,6,6]`, `G = [0,1,6]`, `M = [1,1,1]`. -/
theorem recall_is_recovered_fraction_witness :
    «recall» [0, 6, 6] [0, 1, 6] [1, 1, 1] =
      some (if (Tags.allSpans ⟨[(0, 1)], [], []⟩).length = 0 then 0
        else (((Tags.allSpans ⟨[(0, 1)], [], []⟩).countP
            fun r => spanMatch [0, 6, 6] [0, 1, 6] r : ℕ) : ℚ) /
          ((Tags.allSpans ⟨[(0, 1)], [], []⟩).length : ℚ)) :=
  recall_is_recovered_fraction [0, 6, 6] [0, 1, 6] [1, 1, 1]
    ⟨[(0, 1)], [], []⟩ (by decide)

/-- C3: whenever `precision` returns `p` and `recall` returns `r` on the
same inputs, `compute_f1` returns `0` when both are `0` (decided by the
guard before the division, not by an exception) and `2pr/(p+r)`
otherwise. -/
theorem compute_f1_zero_guard_and_harmonic_mean (P G M : List Int) (p r : ℚ)
    (hp : precision P G M = some p) (hr : «recall» P G M = some r) :
    compute_f1 P G M = some (if p = 0 ∧ r = 0 then 0 else 2 * p * r / (p + r)) := by
  rw [compute_f1, hp]
  simp only [Option.bind_eq_bind, Option.some_bind, hr]
  split_ifs <;> rfl

/-- Witness for C3 at `P = [0,6,6]`, `G = [0,1,6]`, `M = [1,1,1]` (where
`precision` is `1` and `recall` is `0`). -/
theorem compute_f1_zero_guard_witness :
    compute_f1 [0, 6, 6] [0, 1, 6] [1, 1, 1] =
      some (if (1 : ℚ) = 0 ∧ (0 : ℚ) = 0 then 0 else 2 * 1 * 0 / (1 + 0)) :=
  compute_f1_zero_guard_and_harmonic_mean [0, 6, 6] [0, 1, 6] [1, 1, 1] 1 0
    (by simp [precision, findAllTags, findAllTagsAux, runLen, Tags.allSpans,
      Tags.empty, spanMatch, pySlice])
    (by simp [«recall», findAllTags, findAllTagsAux, runLen, Tags.allSpans,
      Tags.empty, spanMatch, pySlice])

/-- C4 (code bug evidence): on predictions `[0]` (a `B-PER` tag at the final
position) with mask `[1]`, the continuation lookahead of `find_all_tags`
reads `predictions[1]`, one past the end of the sequence, and the scan
faults (`IndexError` in the Python code, `none` in this model) instead of
emitting the span `(0, 0)`; the fault propagates through `precision` and
`compute_f1`. -/
theorem find_all_tags_faults_at_trailing_begin :
    findAllTags [0] [1] = none ∧ precision [0] [0] [1] = none ∧
      compute_f1 [0] [0] [1] = none := by
  refine ⟨by decide, by decide, ?_⟩
  rw [compute_f1]
  have hp : precision [0] [0] [1] = none := by decide
  rw [hp]
  rfl

/-- C5: on tags `[0,1,6,2,6]` (`B-PER, I-PER, O, B-ORG, O`) with mask
`[1,1,1,1,1]`, extraction returns exactly one person span `(0, 1)`, one
organization span `(3, 0)`, and no location spans. -/
theorem find_all_tags_concrete_scenario :
    findAllTags [0, 1, 6, 2, 6] [1, 1, 1, 1, 1] =
      some ⟨[(0, 1)], [], [(3, 0)]⟩ := by
  decide

/-- Modelled from the spec: the length of the maximal run of `iTag` at the
head of a list — the spec-side notion "maximal run of the matching Inside
tag beginning at `start + 1`", applied to the suffix starting there. -/
def specMaxRun (iTag : Int) (xs : List Int) : Nat :=
  (xs.takeWhile (fun t => t = iTag)).length

/-- A successful lookahead returns exactly the maximal-run length, and the
position that stopped it lies strictly inside the list. -/
lemma runLen_eq_specMaxRun (iTag : Int) (xs : List Int) (len : Nat)
    (h : runLen iTag xs = some len) :
    len = specMaxRun iTag xs ∧ len < xs.length := by
  induction xs generalizing len with
  | nil => simp [runLen] at h
  | cons t rest ih =>
    rw [runLen] at h
    by_cases ht : t = iTag
    · rw [if_pos ht] at h
      cases hr : runLen iTag rest with
      | none => simp [hr] at h
      | some len' =>
        simp only [hr, Option.map_some', Option.some.injEq] at h
        obtain ⟨h1, h2⟩ := ih len' hr
        subst h
        have hcons : (t :: rest).takeWhile (fun u => decide (u = iTag)) =
            t :: rest.takeWhile (fun u => decide (u = iTag)) :=
          List.takeWhile_cons_of_pos (by simp [ht])
        constructor
        · rw [h1]
          simp only [specMaxRun, hcons, List.length_cons]
        · simp only [List.length_cons]
          omega
    · rw [if_neg ht] at h
      simp only [Option.some.injEq] at h
      have hcons : (t :: rest).takeWhile (fun u => decide (u = iTag)) = [] :=
        List.takeWhile_cons_of_neg (by simp [ht])
      constructor
      · simp [specMaxRun, hcons, ← h]
      · simp [← h]

/-- The facts the scanning loop guarantees for an emitted span of Begin tag
`bTag` and Inside tag `iTag`: the start position holds `bTag`, the
continuation length is what the lookahead returned there, and the mask bit
at the start is present and nonzero. -/
def goodSpan (preds mask : List Int) (bTag iTag : Int) (p : Nat × Nat) : Prop :=
  preds[p.1]? = some bTag ∧
  runLen iTag (preds.drop (p.1 + 1)) = some p.2 ∧
  ∃ m, mask[p.1]? = some m ∧ m ≠ 0

/-- Master invariant of the scanning loop: every span of a successful result
either was already in the accumulator or starts at or after the cursor and
satisfies `goodSpan` for its category. -/
lemma findAllTagsAux_spans (preds mask : List Int) :
    ∀ (fuel idx : Nat) (acc S : Tags),
      findAllTagsAux preds mask fuel idx acc = some S →
      (∀ p ∈ S.per, p ∈ acc.per ∨ (idx ≤ p.1 ∧ goodSpan preds mask 0 1 p)) ∧
      (∀ p ∈ S.org, p ∈ acc.org ∨ (idx ≤ p.1 ∧ goodSpan preds mask 2 3 p)) ∧
      (∀ p ∈ S.loc, p ∈ acc.loc ∨ (idx ≤ p.1 ∧ goodSpan preds mask 4 5 p)) := by
  intro fuel
  induction fuel with
  | zero => intro idx acc S h; simp [findAllTagsAux] at h
  | succ fuel ih =>
    intro idx acc S h
    rw [findAllTagsAux] at h
    by_cases hlt : idx < preds.length
    · rw [dif_pos hlt] at h
      cases hm : mask[idx]? with
      | none => simp [hm] at h
      | some m =>
        simp only [hm] at h
        by_cases hskip : m = 0 ∨ preds[idx] = 6
        · rw [if_pos hskip] at h
          obtain ⟨h1, h2, h3⟩ := ih (idx + 1) acc S h
          refine ⟨fun p hp => ?_, fun p hp => ?_, fun p hp => ?_⟩
          · rcases h1 p hp with h' | ⟨hi, hg⟩
            · exact Or.inl h'
            · exact Or.inr ⟨by omega, hg⟩
          · rcases h2 p hp with h' | ⟨hi, hg⟩
            · exact Or.inl h'
            · exact Or.inr ⟨by omega, hg⟩
          · rcases h3 p hp with h' | ⟨hi, hg⟩
            · exact Or.inl h'
            · exact Or.inr ⟨by omega, hg⟩
        · rw [if_neg hskip] at h
          have hm0 : m ≠ 0 := fun hc => hskip (Or.inl hc)
          by_cases hb0 : preds[idx] = 0
          · rw [if_pos hb0] at h
            cases hr : runLen 1 (preds.drop (idx + 1)) with
            | none => simp [hr] at h
            | some len =>
              simp only [hr] at h
              obtain ⟨h1, h2, h3⟩ := ih _ _ S h
              refine ⟨fun p hp => ?_, fun p hp => ?_, fun p hp => ?_⟩
              · rcases h1 p hp with h' | ⟨hi, hg⟩
                · simp only [List.mem_append, List.mem_singleton] at h'
                  rcases h' with h' | h'
                  · exact Or.inl h'
                  · subst h'
                    exact Or.inr ⟨le_refl _, by rw [List.getElem?_eq_getElem hlt, hb0], hr, m, hm, hm0⟩
                · exact Or.inr ⟨by omega, hg⟩
              · rcases h2 p hp with h' | ⟨hi, hg⟩
                · exact Or.inl h'
                · exact Or.inr ⟨by omega, hg⟩
              · rcases h3 p hp with h' | ⟨hi, hg⟩
                · exact Or.inl h'
                · exact Or.inr ⟨by omega, hg⟩
          · rw [if_neg hb0] at h
            by_cases hb2 : preds[idx] = 2
            · rw [if_pos hb2] at h
              cases hr : runLen 3 (preds.drop (idx + 1)) with
              | none => simp [hr] at h
              | some len =>
                simp only [hr] at h
                obtain ⟨h1, h2, h3⟩ := ih _ _ S h
                refine ⟨fun p hp => ?_, fun p hp => ?_, fun p hp => ?_⟩
                · rcases h1 p hp with h' | ⟨hi, hg⟩
                  · exact Or.inl h'
                  · exact Or.inr ⟨by omega, hg⟩
                · rcases h2 p hp with h' | ⟨hi, hg⟩
                  · simp only [List.mem_append, List.mem_singleton] at h'
                    rcases h' with h' | h'
                    · exact Or.inl h'
                    · subst h'
                      exact Or.inr ⟨le_refl _, by rw [List.getElem?_eq_getElem hlt, hb2], hr, m, hm, hm0⟩
                  · exact Or.inr ⟨by omega, hg⟩
                · rcases h3 p hp with h' | ⟨hi, hg⟩
                  · exact Or.inl h'
                  · exact Or.inr ⟨by omega, hg⟩
            · rw [if_neg hb2] at h
              by_cases hb4 : preds[idx] = 4
              · rw [if_pos hb4] at h
                cases hr : runLen 5 (preds.drop (idx + 1)) with
                | none => simp [hr] at h
                | some len =>
                  simp only [hr] at h
                  obtain ⟨h1, h2, h3⟩ := ih _ _ S h
                  refine ⟨fun p hp => ?_, fun p hp => ?_, fun p hp => ?_⟩
                  · rcases h1 p hp with h' | ⟨hi, hg⟩
                    · exact Or.inl h'
                    · exact Or.inr ⟨by omega, hg⟩
                  · rcases h2 p hp with h' | ⟨hi, hg⟩
                    · exact Or.inl h'
                    · exact Or.inr ⟨by omega, hg⟩
                  · rcases h3 p hp with h' | ⟨hi, hg⟩
                    · simp only [List.mem_append, List.mem_singleton] at h'
                      rcases h' with h' | h'
                      · exact Or.inl h'
                      · subst h'
                        exact Or.inr ⟨le_refl _, by rw [List.getElem?_eq_getElem hlt, hb4], hr, m, hm, hm0⟩
                    · exact Or.inr ⟨by omega, hg⟩
              · rw [if_neg hb4] at h
                obtain ⟨h1, h2, h3⟩ := ih (idx + 1) acc S h
                refine ⟨fun p hp => ?_, fun p hp => ?_, fun p hp => ?_⟩
                · rcases h1 p hp with h' | ⟨hi, hg⟩
                  · exact Or.inl h'
                  · exact Or.inr ⟨by omega, hg⟩
                · rcases h2 p hp with h' | ⟨hi, hg⟩
                  · exact Or.inl h'
                  · exact Or.inr ⟨by omega, hg⟩
                · rcases h3 p hp with h' | ⟨hi, hg⟩
                  · exact Or.inl h'
                  · exact Or.inr ⟨by omega, hg⟩
    · rw [dif_neg hlt] at h
      simp only [Option.some.injEq] at h
      subst h
      exact ⟨fun p hp => Or.inl hp, fun p hp => Or.inl hp, fun p hp => Or.inl hp⟩

/-- C6: every span `(start, continuation_length)` emitted by a successful
extraction has `continuation_length` equal to the length of the maximal run
of the matching Inside tag beginning at `start + 1`, and that run never
counts a position at or past the end of the sequence
(`start + 1 + continuation_length ≤ length`). -/
theorem spans_have_maximal_continuation_runs (T M : List Int) (S : Tags)
    (h : findAllTags T M = some S) :
    (∀ p ∈ S.per, p.2 = specMaxRun 1 (T.drop (p.1 + 1)) ∧ p.1 + 1 + p.2 ≤ T.length) ∧
    (∀ p ∈ S.org, p.2 = specMaxRun 3 (T.drop (p.1 + 1)) ∧ p.1 + 1 + p.2 ≤ T.length) ∧
    (∀ p ∈ S.loc, p.2 = specMaxRun 5 (T.drop (p.1 + 1)) ∧ p.1 + 1 + p.2 ≤ T.length) := by
  obtain ⟨h1, h2, h3⟩ := findAllTagsAux_spans T M (T.length + 1) 0 Tags.empty S h
  have key : ∀ (iTag : Int) (p : Nat × Nat),
      runLen iTag (T.drop (p.1 + 1)) = some p.2 →
      p.2 = specMaxRun iTag (T.drop (p.1 + 1)) ∧ p.1 + 1 + p.2 ≤ T.length := by
    intro iTag p hrl
    obtain ⟨he, hlen⟩ := runLen_eq_specMaxRun iTag (T.drop (p.1 + 1)) p.2 hrl
    have hd : (T.drop (p.1 + 1)).length = T.length - (p.1 + 1) :=
      List.length_drop (p.1 + 1) T
    exact ⟨he, by omega⟩
  refine ⟨fun p hp => ?_, fun p hp => ?_, fun p hp => ?_⟩
  · exact key 1 p ((h1 p hp).resolve_left (by simp [Tags.empty])).2.2.1
  · exact key 3 p ((h2 p hp).resolve_left (by simp [Tags.empty])).2.2.1
  · exact key 5 p ((h3 p hp).resolve_left (by simp [Tags.empty])).2.2.1

/-- Witness for C6 at `T = [0,1,6,2,6]`, `M = [1,1,1,1,1]`, person span
`(0, 1)`. -/
theorem spans_have_maximal_continuation_runs_witness :
    (1 : Nat) = specMaxRun 1 (([0, 1, 6, 2, 6] : List Int).drop (0 + 1)) ∧
      0 + 1 + 1 ≤ ([0, 1, 6, 2, 6] : List Int).length :=
  (spans_have_maximal_continuation_runs [0, 1, 6, 2, 6] [1, 1, 1, 1, 1]
    ⟨[(0, 1)], [], [(3, 0)]⟩ (by decide)).1 (0, 1) (by decide)

/-- C9: no span emitted by a successful extraction starts at a position
whose mask bit is `0`. -/
theorem no_span_starts_at_masked_position (T M : List Int) (S : Tags)
    (h : findAllTags T M = some S) :
    ∀ p ∈ S.allSpans, M[p.1]? ≠ some 0 := by
  obtain ⟨h1, h2, h3⟩ := findAllTagsAux_spans T M (T.length + 1) 0 Tags.empty S h
  intro p hp hc
  have hg : ∃ m, M[p.1]? = some m ∧ m ≠ 0 := by
    unfold Tags.allSpans at hp
    rcases List.mem_append.1 hp with hp2 | hp'
    · rcases List.mem_append.1 hp2 with hp' | hp'
      · exact ((h1 p hp').resolve_left (by simp [Tags.empty])).2.2.2
      · exact ((h3 p hp').resolve_left (by simp [Tags.empty])).2.2.2
    · exact ((h2 p hp').resolve_left (by simp [Tags.empty])).2.2.2
  obtain ⟨m, hm, hm0⟩ := hg
  rw [hm] at hc
  exact hm0 (Option.some.inj hc)

/-- Witness for C9 at `T = [0,1,6,2,6]`, `M = [1,1,1,1,1]`, span `(0, 1)`. -/
theorem no_span_starts_at_masked_position_witness :
    ([1, 1, 1, 1, 1] : List Int)[(0 : Nat)]? ≠ some 0 :=
  no_span_starts_at_masked_position [0, 1, 6, 2, 6] [1, 1, 1, 1, 1]
    ⟨[(0, 1)], [], [(3, 0)]⟩ (by decide) (0, 1) (by decide)

/-- Membership in `allSpans` split by category. -/
lemma Tags.mem_allSpans {t : Tags} {p : Nat × Nat} :
    p ∈ t.allSpans ↔ p ∈ t.per ∨ p ∈ t.loc ∨ p ∈ t.org := by
  simp [Tags.allSpans, List.mem_append, or_assoc]

/-- Corollary of the master invariant: every span of a successful result is
either an accumulator span or starts at or after the cursor. -/
lemma findAllTagsAux_spans_all (preds mask : List Int) (fuel idx : Nat)
    (acc S : Tags) (h : findAllTagsAux preds mask fuel idx acc = some S) :
    ∀ p ∈ S.allSpans, p ∈ acc.allSpans ∨ idx ≤ p.1 := by
  obtain ⟨h1, h2, h3⟩ := findAllTagsAux_spans preds mask fuel idx acc S h
  intro p hp
  rw [Tags.mem_allSpans] at hp ⊢
  rcases hp with hp | hp | hp
  · exact (h1 p hp).imp (fun h' => Or.inl h') (fun h' => h'.1)
  · exact (h3 p hp).imp (fun h' => Or.inr (Or.inl h')) (fun h' => h'.1)
  · exact (h2 p hp).imp (fun h' => Or.inr (Or.inr h')) (fun h' => h'.1)

/-- Mask bits at positions strictly inside a continuation run are never
read: if the scan succeeds under `mask`, and `mask'` agrees with `mask` at
every position at or after the cursor that is not strictly inside an
emitted span starting at or after the cursor, the scan under `mask'`
succeeds with the same result.  The accumulator hypothesis records that
already-emitted spans end strictly before the cursor. -/
lemma findAllTagsAux_mask_irrel (preds mask mask' : List Int) :
    ∀ (fuel idx : Nat) (acc S : Tags),
      findAllTagsAux preds mask fuel idx acc = some S →
      (∀ p ∈ acc.allSpans, p.1 + p.2 < idx) →
      (∀ i, idx ≤ i →
        (¬ ∃ p ∈ S.allSpans, idx ≤ p.1 ∧ p.1 < i ∧ i ≤ p.1 + p.2) →
        mask[i]? = mask'[i]?) →
      findAllTagsAux preds mask' fuel idx acc = some S := by
  intro fuel
  induction fuel with
  | zero => intro idx acc S h hacc hagree; simp [findAllTagsAux] at h
  | succ fuel ih =>
    intro idx acc S h hacc hagree
    rw [findAllTagsAux] at h ⊢
    by_cases hlt : idx < preds.length
    · rw [dif_pos hlt] at h ⊢
      have hidx : mask[idx]? = mask'[idx]? :=
        hagree idx (le_refl idx) (by rintro ⟨p, hp, hge, hl, hr⟩; omega)
      rw [← hidx]
      cases hm : mask[idx]? with
      | none => simp [hm] at h
      | some m =>
        simp only [hm] at h ⊢
        by_cases hskip : m = 0 ∨ preds[idx] = 6
        · rw [if_pos hskip] at h ⊢
          have hmem := findAllTagsAux_spans_all preds mask fuel (idx + 1) acc S h
          refine ih (idx + 1) acc S h (fun p hp => ?_) (fun i hi hn => ?_)
          · have := hacc p hp; omega
          · refine hagree i (by omega) ?_
            rintro ⟨p, hpS, hge, hl, hr2⟩
            rcases hmem p hpS with hin | hge'
            · have := hacc p hin; omega
            · exact hn ⟨p, hpS, hge', hl, hr2⟩
        · rw [if_neg hskip] at h ⊢
          by_cases hb0 : preds[idx] = 0
          · rw [if_pos hb0] at h ⊢
            cases hr : runLen 1 (preds.drop (idx + 1)) with
            | none => simp [hr] at h
            | some len =>
              simp only [hr] at h ⊢
              have hmem := findAllTagsAux_spans_all preds mask fuel (idx + (len + 1))
                { acc with per := acc.per ++ [(idx, len)] } S h
              refine ih (idx + (len + 1)) _ S h (fun p hp => ?_) (fun i hi hn => ?_)
              · rw [Tags.mem_allSpans] at hp
                simp only [List.mem_append, List.mem_singleton] at hp
                rcases hp with (hp | hp) | hp | hp
                · have := hacc p (Tags.mem_allSpans.mpr (Or.inl hp)); omega
                · subst hp; omega
                · have := hacc p (Tags.mem_allSpans.mpr (Or.inr (Or.inl hp))); omega
                · have := hacc p (Tags.mem_allSpans.mpr (Or.inr (Or.inr hp))); omega
              · refine hagree i (by omega) ?_
                rintro ⟨p, hpS, hge, hl, hr2⟩
                rcases hmem p hpS with hin | hge'
                · rw [Tags.mem_allSpans] at hin
                  simp only [List.mem_append, List.mem_singleton] at hin
                  rcases hin with (hp | hp) | hp | hp
                  · have := hacc p (Tags.mem_allSpans.mpr (Or.inl hp)); omega
                  · subst hp; simp at hl hr2; omega
                  · have := hacc p (Tags.mem_allSpans.mpr (Or.inr (Or.inl hp))); omega
                  · have := hacc p (Tags.mem_allSpans.mpr (Or.inr (Or.inr hp))); omega
                · exact hn ⟨p, hpS, hge', hl, hr2⟩
          · rw [if_neg hb0] at h ⊢
            by_cases hb2 : preds[idx] = 2
            · rw [if_pos hb2] at h ⊢
              cases hr : runLen 3 (preds.drop (idx + 1)) with
              | none => simp [hr] at h
              | some len =>
                simp only [hr] at h ⊢
                have hmem := findAllTagsAux_spans_all preds mask fuel (idx + (len + 1))
                  { acc with org := acc.org ++ [(idx, len)] } S h
                refine ih (idx + (len + 1)) _ S h (fun p hp => ?_) (fun i hi hn => ?_)
                · rw [Tags.mem_allSpans] at hp
                  simp only [List.mem_append, List.mem_singleton] at hp
                  rcases hp with hp | hp | hp | hp
                  · have := hacc p (Tags.mem_allSpans.mpr (Or.inl hp)); omega
                  · have := hacc p (Tags.mem_allSpans.mpr (Or.inr (Or.inl hp))); omega
                  · have := hacc p (Tags.mem_allSpans.mpr (Or.inr (Or.inr hp))); omega
                  · subst hp; omega
                · refine hagree i (by omega) ?_
                  rintro ⟨p, hpS, hge, hl, hr2⟩
                  rcases hmem p hpS with hin | hge'
                  · rw [Tags.mem_allSpans] at hin
                    simp only [List.mem_append, List.mem_singleton] at hin
                    rcases hin with hp | hp | hp | hp
                    · have := hacc p (Tags.mem_allSpans.mpr (Or.inl hp)); omega
                    · have := hacc p (Tags.mem_allSpans.mpr (Or.inr (Or.inl hp))); omega
                    · have := hacc p (Tags.mem_allSpans.mpr (Or.inr (Or.inr hp))); omega
                    · subst hp; simp at hl hr2; omega
                  · exact hn ⟨p, hpS, hge', hl, hr2⟩
            · rw [if_neg hb2] at h ⊢
              by_cases hb4 : preds[idx] = 4
              · rw [if_pos hb4] at h ⊢
                cases hr : runLen 5 (preds.drop (idx + 1)) with
                | none => simp [hr] at h
                | some len =>
                  simp only [hr] at h ⊢
                  have hmem := findAllTagsAux_spans_all preds mask fuel (idx + (len + 1))
                    { acc with loc := acc.loc ++ [(idx, len)] } S h
                  refine ih (idx + (len + 1)) _ S h (fun p hp => ?_) (fun i hi hn => ?_)
                  · rw [Tags.mem_allSpans] at hp
                    simp only [List.mem_append, List.mem_singleton] at hp
                    rcases hp with hp | (hp | hp) | hp
                    · have := hacc p (Tags.mem_allSpans.mpr (Or.inl hp)); omega
                    · have := hacc p (Tags.mem_allSpans.mpr (Or.inr (Or.inl hp))); omega
                    · subst hp; omega
                    · have := hacc p (Tags.mem_allSpans.mpr (Or.inr (Or.inr hp))); omega
                  · refine hagree i (by omega) ?_
                    rintro ⟨p, hpS, hge, hl, hr2⟩
                    rcases hmem p hpS with hin | hge'
                    · rw [Tags.mem_allSpans] at hin
                      simp only [List.mem_append, List.mem_singleton] at hin
                      rcases hin with hp | (hp | hp) | hp
                      · have := hacc p (Tags.mem_allSpans.mpr (Or.inl hp)); omega
                      · have := hacc p (Tags.mem_allSpans.mpr (Or.inr (Or.inl hp))); omega
                      · subst hp; simp at hl hr2; omega
                      · have := hacc p (Tags.mem_allSpans.mpr (Or.inr (Or.inr hp))); omega
                    · exact hn ⟨p, hpS, hge', hl, hr2⟩
              · rw [if_neg hb4] at h ⊢
                have hmem := findAllTagsAux_spans_all preds mask fuel (idx + 1) acc S h
                refine ih (idx + 1) acc S h (fun p hp => ?_) (fun i hi hn => ?_)
                · have := hacc p hp; omega
                · refine hagree i (by omega) ?_
                  rintro ⟨p, hpS, hge, hl, hr2⟩
                  rcases hmem p hpS with hin | hge'
                  · have := hacc p hin; omega
                  · exact hn ⟨p, hpS, hge', hl, hr2⟩
    · rw [dif_neg hlt] at h ⊢
      exact h

/-- Position `i` lies strictly inside the extent of some extracted span:
after a span's start and at most `continuation_length` positions beyond
it — exactly the positions the continuation lookahead scanned. -/
def insideSpan (S : Tags) (i : Nat) : Prop :=
  ∃ p ∈ S.allSpans, p.1 < i ∧ i ≤ p.1 + p.2

/-- C7: whether a position extends a continuation run depends only on the
tag there, never on its mask bit: two masks that agree at every position
not strictly inside an extracted span's continuation run yield the same
span collection. -/
theorem continuation_lookahead_ignores_mask (preds mask mask' : List Int)
    (S : Tags) (h : findAllTags preds mask = some S)
    (hagree : ∀ i, ¬ insideSpan S i → mask[i]? = mask'[i]?) :
    findAllTags preds mask' = some S := by
  refine findAllTagsAux_mask_irrel preds mask mask' (preds.length + 1) 0
    Tags.empty S h (fun p hp => by simp [Tags.empty, Tags.allSpans] at hp)
    (fun i hi hn => hagree i ?_)
  rintro ⟨p, hp, hl, hr⟩
  exact hn ⟨p, hp, Nat.zero_le _, hl, hr⟩

/-- Witness for C7: `[1,1,1]` and `[1,0,1]` differ only at position `1`,
which is strictly inside the person span `(0, 1)` of `[0,1,6]`; extraction
under the second mask returns the same collection. -/
theorem continuation_lookahead_ignores_mask_witness :
    findAllTags [0, 1, 6] [1, 0, 1] = some ⟨[(0, 1)], [], []⟩ :=
  continuation_lookahead_ignores_mask [0, 1, 6] [1, 1, 1] [1, 0, 1]
    ⟨[(0, 1)], [], []⟩ (by decide)
    (fun i hi => by
      match i with
      | 0 => rfl
      | 1 => exact absurd ⟨(0, 1), by decide, by omega, by omega⟩ hi
      | 2 => rfl
      | n + 3 => rfl)

/-- C8 counterexample: with `P = [0,1,6]`, `G = [0,5,6]`, `M = [1,0,1]`, the
predicted and gold sequences agree at every non-masked position (the
boolean scan over the zipped triple checks `mask = 0` or `P = G` at each
position), and a span is extracted, yet `precision` is `0`, not `1`: the
slice test also compares position `1`, whose mask bit is `0`, where the
two sequences differ. -/
theorem exact_match_ignoring_mask_insufficient :
    (([0, 1, 6] : List Int).zip (([0, 5, 6] : List Int).zip
        ([1, 0, 1] : List Int))).all
      (fun t => t.2.2 == 0 || t.1 == t.2.1) = true ∧
    findAllTags [0, 1, 6] [1, 0, 1] = some ⟨[(0, 1)], [], []⟩ ∧
    precision [0, 1, 6] [0, 5, 6] [1, 0, 1] = some 0 := by
  refine ⟨by decide, by decide, ?_⟩
  simp [precision, findAllTags, findAllTagsAux, runLen, Tags.allSpans,
    Tags.empty, spanMatch, pySlice]

/-- C8 (amended): if the predicted sequence equals the gold sequence at
every position, and extraction succeeds with at least one span, then
precision, recall and F1 all equal `1`. -/
theorem exact_equality_gives_perfect_scores (P G M : List Int) (S : Tags)
    (hPG : P = G) (h : findAllTags P M = some S) (hne : S.allSpans ≠ []) :
    precision P G M = some 1 ∧ «recall» P G M = some 1 ∧
      compute_f1 P G M = some 1 := by
  subst hPG
  have hlen : S.allSpans.length ≠ 0 := fun hc => hne (List.length_eq_zero.mp hc)
  have hmatch : ∀ r ∈ S.allSpans, spanMatch P P r = true := fun r _ => by
    simp [spanMatch]
  have hcnt : (S.allSpans.countP fun r => spanMatch P P r) = S.allSpans.length :=
    List.countP_eq_length.mpr hmatch
  have hp : precision P P M = some 1 := by
    rw [precision_eq P P M S h, if_neg hlen, hcnt,
      div_self (Nat.cast_ne_zero.mpr hlen)]
  have hr : «recall» P P M = some 1 := by
    rw [recall_eq P P M S h, if_neg hlen, hcnt,
      div_self (Nat.cast_ne_zero.mpr hlen)]
  refine ⟨hp, hr, ?_⟩
  rw [compute_f1, hp]
  simp only [Option.bind_eq_bind, Option.some_bind, hr]
  norm_num

/-- Witness for the amended C8 at `P = G = [0,1,6]`, `M = [1,1,1]`. -/
theorem exact_equality_gives_perfect_scores_witness :
    precision [0, 1, 6] [0, 1, 6] [1, 1, 1] = some 1 ∧
    «recall» [0, 1, 6] [0, 1, 6] [1, 1, 1] = some 1 ∧
    compute_f1 [0, 1, 6] [0, 1, 6] [1, 1, 1] = some 1 :=
  exact_equality_gives_perfect_scores [0, 1, 6] [0, 1, 6] [1, 1, 1]
    ⟨[(0, 1)], [], []⟩ rfl (by decide) (by decide)

/-- C10: the true-positive slice test compares every position of the span
extent `[start, start + length]` inclusive — the mask never enters it — so
a disagreement between `P` and `G` anywhere in the extent (in particular
at a position whose mask bit is `0`) makes the span score as a failure,
and consequently neither `precision` nor `recall` can be `1` when such a
span is among the extracted ones. -/
theorem slice_test_includes_masked_positions (P G : List Int) (s l i : Nat)
    (hsi : s ≤ i) (hil : i ≤ s + l) (hiP : i < P.length) (hiG : i < G.length)
    (hne : P[i]? ≠ G[i]?) :
    spanMatch P G (s, l) = false ∧
    (∀ M S, findAllTags P M = some S → (s, l) ∈ S.allSpans →
      precision P G M ≠ some 1) ∧
    (∀ M S, findAllTags G M = some S → (s, l) ∈ S.allSpans →
      «recall» P G M ≠ some 1) := by
  have hslice : ∀ xs : List Int, i < xs.length →
      (pySlice xs s (s + l + 1))[i - s]? = xs[i]? := by
    intro xs hx
    rw [pySlice]
    have hb : s + l + 1 - s = l + 1 := by omega
    rw [hb, List.getElem?_take, if_pos (by omega), List.getElem?_drop]
    congr 1
    omega
  have hsm : spanMatch P G (s, l) = false := by
    simp only [spanMatch, decide_eq_false_iff_not]
    intro heq
    have h1 := hslice P hiP
    have h2 := hslice G hiG
    rw [heq] at h1
    rw [h2] at h1
    exact hne (Option.ext fun a => by rw [h1])
  have hfrac : ∀ (S : Tags), (s, l) ∈ S.allSpans →
      ¬ (if S.allSpans.length = 0 then (0 : ℚ)
        else ((S.allSpans.countP fun r => spanMatch P G r : ℕ) : ℚ) /
          (S.allSpans.length : ℚ)) = 1 := by
    intro S hmem hval
    have hlen : S.allSpans.length ≠ 0 := by
      intro hc
      rw [List.length_eq_zero] at hc
      rw [hc] at hmem
      simp at hmem
    rw [if_neg hlen] at hval
    have hq : ((S.allSpans.countP fun r => spanMatch P G r : ℕ) : ℚ) =
        (S.allSpans.length : ℚ) :=
      (div_eq_one_iff_eq (Nat.cast_ne_zero.mpr hlen)).mp hval
    have hcnt : (S.allSpans.countP fun r => spanMatch P G r) =
        S.allSpans.length := by exact_mod_cast hq
    have := List.countP_eq_length.mp hcnt (s, l) hmem
    rw [hsm] at this
    exact Bool.false_ne_true this
  refine ⟨hsm, fun M S hS hmem hp1 => ?_, fun M S hS hmem hr1 => ?_⟩
  · rw [precision_eq P G M S hS] at hp1
    exact hfrac S hmem (Option.some.inj hp1)
  · rw [recall_eq P G M S hS] at hr1
    exact hfrac S hmem (Option.some.inj hr1)

/-- Witness for C10 at `P = [0,1,6]`, `G = [0,5,6]`, span `(0, 1)`,
disagreeing position `i = 1`. -/
theorem slice_test_includes_masked_positions_witness :
    spanMatch [0, 1, 6] [0, 5, 6] (0, 1) = false :=
  (slice_test_includes_masked_positions [0, 1, 6] [0, 5, 6] 0 1 1 (by decide)
    (by decide) (by decide) (by decide) (by decide)).1
